import Mathlib

/-!
# Verification of the `ipld_hamt_benchmarks` repository

Shallow embedding of the repository's source files:

* `src/vendor/fvm_ipld_hamt/src/pointer.rs` — the `Pointer` enum, its
  `PartialEq`, `Serialize`/`Deserialize` impls and the `clean` method;
* `src/src/memorydb.rs` — the `MemoryDB` blockstore;
* `src/src/main.rs` — the `Averages` statistics and `avg_node_degree`;
* `src/src/tests.rs` — `Operation`, `can_be_swapped_with`, `shuffle_swap`.

The trie core (`node.rs`, `hamt.rs` of the vendored `fvm_ipld_hamt` crate) is
not part of the given sources; where a claim needs it, the missing part is
modelled from the spec and marked as such in its doc comment.

Machine integers (`u64`, `usize`) are modelled as `Nat`: the counters involved
only ever grow by small additions and no wrap-around is reachable.
-/

namespace HamtBench

/-- Content identifiers (`cid::Cid`) are modelled by their byte representation
(`Cid::to_bytes` is injective), i.e. as a list of bytes. -/
def Cid : Type := List Nat

instance : DecidableEq Cid := by unfold Cid; infer_instance

/-- `KeyValuePair<K, V>` from the vendored crate: a key together with a value
(`kv.key()` returns the first component). -/
structure KeyValuePair (K V : Type) where
  key : K
  value : V
deriving DecidableEq, Repr

mutual

/-- `Pointer<K, V, H, MAX_ARRAY_WIDTH>` from `pointer.rs`: either a bucket of
entries (`Values`), a link to a persisted child by content identifier with a
lazily initialized cache (`Link`), or an in-memory modified child (`Dirty`).
The `OnceCell` cache is modelled as an `Option` of the cached node. -/
inductive Pointer (K V : Type) where
  | Values : List (KeyValuePair K V) → Pointer K V
  | Link : (cid : Cid) → (cache : Option (Node K V)) → Pointer K V
  | Dirty : Node K V → Pointer K V

/-- `Node<K, V, H, MAX_ARRAY_WIDTH>` from the vendored crate: a bitfield plus a
dense pointer array.  The bitfield (only carried around, never inspected by
the code under verification) is modelled as a `Nat` bitmap. -/
inductive Node (K V : Type) where
  | mk : (bitfield : Nat) → (pointers : List (Pointer K V)) → Node K V

end

/-- The `pointers` field accessor of `Node`. -/
def Node.pointers {K V : Type} : Node K V → List (Pointer K V)
  | .mk _ ps => ps

/-- The `bitfield` field accessor of `Node`. -/
def Node.bitfield {K V : Type} : Node K V → Nat
  | .mk bf _ => bf

/-- The error enum of the vendored crate (`error.rs`, only declared outside the
given sources; `pointer.rs` uses exactly the `ZeroPointers` variant, and the
spec names `Max Depth Exceeded` as the other structural error). -/
inductive Error where
  | ZeroPointers
  | MaxDepth
deriving DecidableEq, Repr

/-- Result of running `Pointer::clean`: `ok p` models `Ok(())` with the pointer
rewritten (in Rust, through `&mut self`) to `p`; `err e` models `Err(e)`;
`crash` models reaching the `unreachable!` panic. -/
inductive CleanResult (K V : Type) where
  | ok : Pointer K V → CleanResult K V
  | err : Error → CleanResult K V
  | crash : CleanResult K V

/-- The loop of `Pointer::clean` over the child pointers: returns `some` of the
lists of entries when every child is a `Values` pointer (in the order they
appear), and `none` as soon as some child is not a `Values` pointer. -/
def collectValues {K V : Type} : List (Pointer K V) → Option (List (List (KeyValuePair K V)))
  | [] => some []
  | .Values vs :: rest => (collectValues rest).map (fun ls => vs :: ls)
  | .Link _ _ :: _ => none
  | .Dirty _ :: _ => none

/-- The sort of `Pointer::clean`:
`child_vals.sort_unstable_by(|a, b| a.key().partial_cmp(b.key()).unwrap_or(Equal))`.
For keys with a (total) linear order `partial_cmp` never returns `None`, so the
comparator is the key order; the unstable sort is modelled by insertion sort
with the same comparator (any sort by this comparator is a faithful model up to
the order of equal keys, which `sort_unstable_by` leaves unspecified). -/
def sortByKey {K V : Type} [LinearOrder K] (l : List (KeyValuePair K V)) :
    List (KeyValuePair K V) :=
  List.insertionSort (fun a b => a.key ≤ b.key) l

/-- `Pointer::clean` from `pointer.rs` (with `aw` for the `MAX_ARRAY_WIDTH`
const generic).  On a `Dirty` pointer it matches on the number of child
pointers: `0` is an error; for `1`, a `Values` child is promoted to replace the
parent (any other child leaves the pointer unchanged); for two or more, the
children are merged into a single sorted `Values` pointer when the child count
is at most `aw`, every child is a `Values` pointer and the total entry count is
at most `aw`, and the pointer is left unchanged otherwise.  On a non-`Dirty`
pointer the Rust code reaches `unreachable!`, modelled by `crash`. -/
def clean {K V : Type} [LinearOrder K] (aw : Nat) : Pointer K V → CleanResult K V
  | .Dirty (.mk bf ps) =>
    match ps with
    | [] => .err .ZeroPointers
    | [.Values vals] => .ok (.Values vals)
    | [p] => .ok (.Dirty (.mk bf [p]))
    | p1 :: p2 :: rest =>
      if (p1 :: p2 :: rest).length > aw then .ok (.Dirty (.mk bf (p1 :: p2 :: rest)))
      else
        match collectValues (p1 :: p2 :: rest) with
        | none => .ok (.Dirty (.mk bf (p1 :: p2 :: rest)))
        | some ls =>
          if (ls.map List.length).sum > aw then .ok (.Dirty (.mk bf (p1 :: p2 :: rest)))
          else .ok (.Values (sortByKey ls.flatten))
  | .Values _ => .crash
  | .Link _ _ => .crash

/-- Whether a pointer is the `Dirty` variant. -/
def Pointer.isDirty {K V : Type} : Pointer K V → Bool
  | .Dirty _ => true
  | _ => false

section CleanTheorems

variable {K V : Type} [LinearOrder K]

/-- The key comparator on entries is total. -/
instance : IsTotal (KeyValuePair K V) (fun a b => a.key ≤ b.key) :=
  ⟨fun a b => le_total a.key b.key⟩

/-- The key comparator on entries is transitive. -/
instance : IsTrans (KeyValuePair K V) (fun a b => a.key ≤ b.key) :=
  ⟨fun _ _ _ hab hbc => le_trans hab hbc⟩

theorem sortByKey_sorted (l : List (KeyValuePair K V)) :
    List.Sorted (fun a b => a.key ≤ b.key) (sortByKey l) :=
  List.sorted_insertionSort _ l

/-- Stepping equation for `clean` on a dirty node with at least two child
pointers. -/
theorem clean_cons_cons (aw bf : Nat) (p1 p2 : Pointer K V)
    (rest : List (Pointer K V)) :
    clean aw (.Dirty (.mk bf (p1 :: p2 :: rest))) =
      if aw < (p1 :: p2 :: rest).length then
        .ok (.Dirty (.mk bf (p1 :: p2 :: rest)))
      else
        match collectValues (p1 :: p2 :: rest) with
        | none => .ok (.Dirty (.mk bf (p1 :: p2 :: rest)))
        | some ls =>
          if aw < (ls.map List.length).sum then
            .ok (.Dirty (.mk bf (p1 :: p2 :: rest)))
          else .ok (.Values (sortByKey ls.flatten)) := by
  simp only [clean]

theorem clean_dirty_not_crash (aw bf : Nat) (ps : List (Pointer K V)) :
    (∃ q, clean aw (.Dirty (.mk bf ps)) = .ok q) ∨
      clean aw (.Dirty (.mk bf ps)) = .err .ZeroPointers := by
  match ps with
  | [] => exact Or.inr rfl
  | [p] => cases p <;> exact Or.inl ⟨_, rfl⟩
  | p1 :: p2 :: rest =>
    refine Or.inl ?_
    rw [clean_cons_cons]
    split
    · exact ⟨_, rfl⟩
    · split
      · exact ⟨_, rfl⟩
      · split
        · exact ⟨_, rfl⟩
        · exact ⟨_, rfl⟩

/-- C5: on a `Dirty` pointer whose child node has zero pointers, `clean`
returns the `ZeroPointers` error as an explicit result, leaving no silently
modified state behind. -/
theorem clean_zero_pointers_is_error (aw bf : Nat) :
    clean aw (.Dirty (.mk bf ([] : List (Pointer K V)))) = .err .ZeroPointers := rfl

/-- C9: `clean` reaches the `unreachable!` panic exactly on non-`Dirty`
pointers; on a `Dirty` pointer it always returns an explicit result, either
`Ok` or `Err(ZeroPointers)`. -/
theorem clean_crash_characterization (aw : Nat) (p : Pointer K V) :
    (clean aw p = .crash ↔ p.isDirty = false) ∧
    (p.isDirty = true →
      (∃ q, clean aw p = .ok q) ∨ clean aw p = .err .ZeroPointers) := by
  constructor
  · cases p with
    | Values vals => simp [clean, Pointer.isDirty]
    | Link cid cache => simp [clean, Pointer.isDirty]
    | Dirty n =>
      cases n with
      | mk bf ps =>
        simp only [Pointer.isDirty, iff_false]
        rcases clean_dirty_not_crash aw bf ps with ⟨q, hq⟩ | hq <;> simp [hq]
  · intro hd
    cases p with
    | Values vals => simp [Pointer.isDirty] at hd
    | Link cid cache => simp [Pointer.isDirty] at hd
    | Dirty n =>
      cases n with
      | mk bf ps => exact clean_dirty_not_crash aw bf ps

/-- Witness for C9: on a concrete dirty pointer, `clean` returns an explicit
result. -/
theorem clean_crash_characterization_witness :
    (∃ q, clean 3 (.Dirty (.mk 0 [(.Values [⟨(0 : Nat), (0 : Nat)⟩] : Pointer Nat Nat)])) =
        .ok q) ∨
      clean 3 (.Dirty (.mk 0 [(.Values [⟨(0 : Nat), (0 : Nat)⟩] : Pointer Nat Nat)])) =
        .err .ZeroPointers :=
  (clean_crash_characterization 3 (.Dirty (.mk 0 [.Values [⟨0, 0⟩]]))).2 rfl

/-- C3 (amended): for a `Dirty` pointer with two or more child pointers,
`clean` merges the children into one sorted bucket if and only if the child
count is at most `aw`, every child is a `Values` pointer and the total entry
count is at most `aw`; in every other case it returns `Ok` with the pointer
unchanged.  (The claim as frozen omits the child-count bound, see the
counterexample.) -/
theorem clean_merge_characterization (aw bf : Nat) (ps : List (Pointer K V))
    (h2 : 2 ≤ ps.length) :
    (∀ ls, collectValues ps = some ls → ps.length ≤ aw →
        (ls.map List.length).sum ≤ aw →
        clean aw (.Dirty (.mk bf ps)) = .ok (.Values (sortByKey ls.flatten))) ∧
    ((aw < ps.length ∨ collectValues ps = none ∨
        (∀ ls, collectValues ps = some ls → aw < (ls.map List.length).sum)) →
        clean aw (.Dirty (.mk bf ps)) = .ok (.Dirty (.mk bf ps))) := by
  match ps, h2 with
  | p1 :: p2 :: rest, _ =>
    constructor
    · intro ls hls hlen hsum
      rw [clean_cons_cons, if_neg (not_lt.mpr hlen), hls]
      exact if_neg (not_lt.mpr hsum)
    · intro hcase
      rw [clean_cons_cons]
      rcases hcase with h1 | h2' | h3
      · rw [if_pos h1]
      · rw [h2']
        split <;> rfl
      · split
        · rfl
        · cases hcv : collectValues (p1 :: p2 :: rest) with
          | none => rfl
          | some ls => exact if_pos (h3 ls hcv)

/-- Witness for C3: a concrete two-child merge, collapsing into one bucket
sorted by key. -/
theorem clean_merge_characterization_witness :
    clean 3 (.Dirty (.mk 0 [(.Values [⟨(1 : Nat), (10 : Nat)⟩] : Pointer Nat Nat),
        .Values [⟨0, 20⟩]])) =
      .ok (.Values (sortByKey ([[⟨1, 10⟩], [⟨0, 20⟩]] :
        List (List (KeyValuePair Nat Nat))).flatten)) :=
  (clean_merge_characterization 3 0 _ (by decide)).1 _ rfl (by decide) (by decide)

/-- Counterexample to C3 as frozen: with `aw = 1`, a dirty node with two empty
buckets satisfies the claim's merge condition (every child is a bucket and the
total entry count `0` is at most `aw`), yet `clean` leaves the pointer
unchanged because the child count `2` exceeds `aw`. -/
theorem clean_merge_claim_counterexample :
    collectValues ([.Values [], .Values []] : List (Pointer Nat Nat)) =
        some [[], []] ∧
    (([[], []] : List (List (KeyValuePair Nat Nat))).map List.length).sum ≤ 1 ∧
    clean 1 (.Dirty (.mk 0 ([.Values [], .Values []] : List (Pointer Nat Nat)))) =
      .ok (.Dirty (.mk 0 [.Values [], .Values []])) :=
  ⟨rfl, by decide, rfl⟩

/-- C4 (amended): when `clean` collapses a multi-child dirty pointer by the
merge path, the resulting bucket is sorted by key; the one-child promotion
path instead takes the child bucket's entries unchanged, so its result is
sorted exactly when the child bucket already was. -/
theorem clean_collapse_order (aw bf : Nat) (ps : List (Pointer K V))
    (vs vals : List (KeyValuePair K V)) :
    (2 ≤ ps.length → clean aw (.Dirty (.mk bf ps)) = .ok (.Values vs) →
        List.Sorted (fun a b => a.key ≤ b.key) vs) ∧
    clean aw (.Dirty (.mk bf [.Values vals])) = .ok (.Values vals) := by
  constructor
  · intro h2 hclean
    match ps, h2 with
    | p1 :: p2 :: rest, _ =>
      rw [clean_cons_cons] at hclean
      split at hclean
      · simp at hclean
      · split at hclean
        · simp at hclean
        · split at hclean
          · simp at hclean
          · simp only [CleanResult.ok.injEq, Pointer.Values.injEq] at hclean
            rw [← hclean]
            exact sortByKey_sorted _
  · rfl

/-- Witness for C4: the merge path on a concrete input yields a bucket sorted
by key. -/
theorem clean_collapse_order_witness :
    List.Sorted (fun a b : KeyValuePair Nat Nat => a.key ≤ b.key)
      (sortByKey ([[⟨1, 10⟩], [⟨0, 20⟩]] :
        List (List (KeyValuePair Nat Nat))).flatten) :=
  (clean_collapse_order 3 0
      [(.Values [⟨(1 : Nat), (10 : Nat)⟩] : Pointer Nat Nat), .Values [⟨0, 20⟩]]
      (sortByKey ([[⟨1, 10⟩], [⟨0, 20⟩]] :
        List (List (KeyValuePair Nat Nat))).flatten) []).1
    (by decide) rfl

/-- Counterexample to C4 as frozen: promoting the single child bucket
`[(1, 0), (0, 0)]` (legal at rest, since bucket order is insertion order)
yields a bucket that is not sorted by key. -/
theorem clean_promotion_unsorted_counterexample :
    clean 3 (.Dirty (.mk 0 [(.Values [⟨1, 0⟩, ⟨0, 0⟩] : Pointer Nat Nat)])) =
      .ok (.Values [⟨1, 0⟩, ⟨0, 0⟩]) ∧
    ¬ List.Sorted (fun a b : KeyValuePair Nat Nat => a.key ≤ b.key)
        [⟨1, 0⟩, ⟨0, 0⟩] :=
  ⟨rfl, by simp [List.Sorted]⟩

end CleanTheorems

/-! ## Serialization of pointers (`impl Serialize/Deserialize for Pointer`) -/

/-- The IPLD values a pointer round-trips through, restricted to the shapes the
`TryFrom<Ipld>` impl distinguishes: a list of key-value pairs, a link, or any
other IPLD shape.  The serde byte codec on each side of the `Ipld` value is an
external collaborator (spec §6) and is modelled as the identity on this typed
representation. -/
inductive Ipld (K V : Type) where
  | list : List (KeyValuePair K V) → Ipld K V
  | link : Cid → Ipld K V
  | other : Ipld K V

/-- `impl Serialize for Pointer` (`pointer.rs`): a `Values` pointer serializes
as its entry list, a `Link` pointer as its content identifier alone, and a
`Dirty` pointer always fails with a custom serialization error. -/
def serializePointer {K V : Type} : Pointer K V → Except String (Ipld K V)
  | .Values vals => .ok (.list vals)
  | .Link cid _ => .ok (.link cid)
  | .Dirty _ => .error "Cannot serialize cached values"

/-- `impl TryFrom<Ipld> for Pointer` (`pointer.rs`): a list becomes a `Values`
pointer, a link becomes a `Link` pointer with a default (empty) cache, anything
else is an error.  `impl Deserialize for Pointer` composes this with the `Ipld`
decoding. -/
def pointerFromIpld {K V : Type} : Ipld K V → Except String (Pointer K V)
  | .list vals => .ok (.Values vals)
  | .link cid => .ok (.Link cid none)
  | .other => .error "Expected List or Link"

/-- Serialize-then-deserialize composition for a pointer. -/
def pointerRoundTrip {K V : Type} (p : Pointer K V) : Except String (Pointer K V) :=
  (serializePointer p).bind pointerFromIpld

/-- `impl PartialEq for Pointer` (`pointer.rs`): `Values` pointers compare
entry-wise, `Link` pointers compare by content identifier only (caches are
ignored), `Dirty` pointers compare by their child nodes (the child comparison
delegates to `Node`'s `PartialEq`, which lives in the crate's `node.rs`,
outside the given sources; modelled from the spec as structural equality of
the node), and distinct variants are never equal. -/
def PointerEqv {K V : Type} : Pointer K V → Pointer K V → Prop
  | .Values a, .Values b => a = b
  | .Link c1 _, .Link c2 _ => c1 = c2
  | .Dirty a, .Dirty b => a = b
  | _, _ => False

/-- C6: serializing a `Dirty` pointer always fails with a hard error, for any
child node; `Values` and `Link` pointers serialize successfully, a bucket as
its entry list and a link as its content identifier alone. -/
theorem serialize_dirty_fails {K V : Type} (n : Node K V)
    (vals : List (KeyValuePair K V)) (cid : Cid) (cache : Option (Node K V)) :
    serializePointer (.Dirty n) =
        .error "Cannot serialize cached values" ∧
    serializePointer (.Values vals) = .ok (.list vals) ∧
    serializePointer (.Link cid cache) = .ok (.link cid) :=
  ⟨rfl, rfl, rfl⟩

/-- C10: for every `Values` or `Link` pointer, deserializing its serialized
form succeeds and yields a pointer equal to the original under the `Pointer`
equality; the deserialized link carries a fresh empty cache, which the
equality ignores. -/
theorem pointer_roundtrip_eq {K V : Type} (vals : List (KeyValuePair K V))
    (cid : Cid) (cache : Option (Node K V)) :
    pointerRoundTrip (.Values vals) = .ok (.Values vals) ∧
    PointerEqv (.Values vals) (.Values vals) ∧
    pointerRoundTrip (.Link cid cache) = .ok (.Link cid none) ∧
    PointerEqv (.Link cid cache) (.Link cid none) :=
  ⟨rfl, rfl, rfl, rfl⟩

/-! ## The `MemoryDB` blockstore (`memorydb.rs`) -/

/-- `MemoryDB` wraps a `HashMap<Vec<u8>, Vec<u8>>` keyed by `cid.to_bytes()`
(the `RwLock` only serializes access and has no sequential behaviour).  The
hash map is modelled as an association list with unique keys; `insert` removes
any existing binding for the key and appends the new one. -/
def MemoryDB : Type := List (Cid × List Nat)

namespace MemoryDB

/-- `HashMap::insert` in `put_keyed`, as a pure state transformer. -/
def insertBlock (db : MemoryDB) (k : Cid) (block : List Nat) : MemoryDB :=
  db.filter (fun e => decide (e.1 ≠ k)) ++ [(k, block)]

/-- `Blockstore::has` for `MemoryDB`: key membership, always `Ok`. -/
def has (db : MemoryDB) (k : Cid) : Except String Bool :=
  .ok (db.any (fun e => decide (e.1 = k)))

/-- `Blockstore::get` for `MemoryDB`: lookup of the stored block, always
`Ok` (`None` when the identifier is absent). -/
def get (db : MemoryDB) (k : Cid) : Except String (Option (List Nat)) :=
  .ok ((db.find? (fun e => decide (e.1 = k))).map (fun e => e.2))

/-- `Blockstore::put_keyed` for `MemoryDB`: inserts the block under the
identifier's bytes, always `Ok` with the new state. -/
def put_keyed (db : MemoryDB) (k : Cid) (block : List Nat) :
    Except String MemoryDB :=
  .ok (insertBlock db k block)

/-- `MemoryDB::bytes_stored`: the sum of the lengths of all stored blocks. -/
def bytes_stored (db : MemoryDB) : Nat :=
  (db.map (fun e => e.2.length)).sum

end MemoryDB

/-- C7: after `put_keyed(k, b)`, `get(k)` returns `Ok(Some(b))` and `has(k)`
returns `Ok(true)`; re-putting the identical bytes under the same identifier
leaves the stored contents and `bytes_stored()` unchanged; `get` of an
identifier never put returns `Ok(None)`; and `has`, `get` and `put_keyed`
never return an error. -/
theorem memorydb_contract (db : MemoryDB) (k k2 : Cid) (b : List Nat) :
    MemoryDB.get (MemoryDB.insertBlock db k b) k = .ok (some b) ∧
    MemoryDB.has (MemoryDB.insertBlock db k b) k = .ok true ∧
    MemoryDB.put_keyed (MemoryDB.insertBlock db k b) k b =
      .ok (MemoryDB.insertBlock db k b) ∧
    MemoryDB.bytes_stored
        (MemoryDB.insertBlock (MemoryDB.insertBlock db k b) k b) =
      MemoryDB.bytes_stored (MemoryDB.insertBlock db k b) ∧
    (db.all (fun e => decide (e.1 ≠ k)) = true →
      MemoryDB.get db k = .ok none) ∧
    (∃ r, MemoryDB.has db k2 = .ok r) ∧
    (∃ r, MemoryDB.get db k2 = .ok r) ∧
    (∃ r, MemoryDB.put_keyed db k2 b = .ok r) := by
  have hidem : MemoryDB.insertBlock (MemoryDB.insertBlock db k b) k b =
      MemoryDB.insertBlock db k b := by
    unfold MemoryDB.insertBlock
    rw [List.filter_append, List.filter_filter]
    simp
  refine ⟨?_, ?_, ?_, ?_, ?_, ⟨_, rfl⟩, ⟨_, rfl⟩, ⟨_, rfl⟩⟩
  · unfold MemoryDB.get MemoryDB.insertBlock
    rw [List.find?_append]
    have hnone : (db.filter (fun e => decide (e.1 ≠ k))).find?
        (fun e => decide (e.1 = k)) = none := by
      rw [List.find?_eq_none]
      intro e he
      have := List.of_mem_filter he
      simp at this ⊢
      exact this
    rw [hnone]
    simp [List.find?]
  · unfold MemoryDB.has MemoryDB.insertBlock
    simp
  · unfold MemoryDB.put_keyed
    rw [hidem]
  · rw [hidem]
  · intro hall
    unfold MemoryDB.get
    have hnone : db.find? (fun e => decide (e.1 = k)) = none := by
      rw [List.find?_eq_none]
      intro e he
      have := List.all_eq_true.mp hall e he
      simp at this ⊢
      exact this
    rw [hnone]
    rfl

/-- Witness for C7 at a concrete store, identifier and block. -/
theorem memorydb_contract_witness :
    MemoryDB.get (MemoryDB.insertBlock [([0], [7])] [1] [2, 3]) [1] =
      .ok (some [2, 3]) ∧
    ([([0], [7])] : MemoryDB).all (fun e => decide (e.1 ≠ [1])) = true ∧
    MemoryDB.get [([0], [7])] [1] = .ok none := by
  have h := memorydb_contract [([0], [7])] [1] [1] [2, 3]
  exact ⟨h.1, by decide, h.2.2.2.2.1 (by decide)⟩

/-! ## The benchmarking statistics (`main.rs`) -/

/-- The `Averages` struct of `main.rs` (`u64` counters modelled as `Nat`). -/
structure Averages where
  nodes : Nat
  links : Nat
  min_degree : Nat
  max_degree : Nat
  values : Nat

/-- `impl AddAssign for Averages` (`main.rs`), faithfully including its
`self.links += rhs.nodes` line. -/
def Averages.addAssign (a rhs : Averages) : Averages :=
  { nodes := a.nodes + rhs.nodes
    links := a.links + rhs.nodes
    values := a.values + rhs.values
    min_degree := min a.min_degree rhs.min_degree
    max_degree := max a.max_degree rhs.max_degree }

/-- `resolve_link` (`main.rs`): a cached node wins; otherwise the node is
loaded from the store (`get_cbor`), modelled as a partial map from content
identifiers to decoded nodes (`None` both for an absent block and for the
skipped-child case). -/
def resolve_link {K V : Type} (store : Cid → Option (Node K V)) (cid : Cid)
    (cache : Option (Node K V)) : Option (Node K V) :=
  match cache with
  | some n => some n
  | none => store cid

mutual

/-- `avg_node_degree` (`main.rs`): starts from
`{nodes: 1, links: 0, values: 0, min_degree: 0, max_degree: 0}`, walks the
pointer array accumulating child statistics via `AddAssign` and counting the
node's branching `degree`, then adds `degree` to `links` and folds it into
`min_degree`/`max_degree`.  The Rust recursion follows store-resolved links,
which is not structurally decreasing, so link recursion is bounded by an
explicit `fuel` parameter (links beyond the fuel are skipped like unresolved
ones); the theorem below holds for every fuel. -/
def avg_node_degree {K V : Type} (store : Cid → Option (Node K V)) :
    Nat → Node K V → Averages
  | fuel, .mk _ ps =>
    let r := avgPointersLoop store fuel ps
      ⟨1, 0, 0, 0, 0⟩ 0
    { r.1 with
      links := r.1.links + r.2
      min_degree := min r.1.min_degree r.2
      max_degree := max r.1.max_degree r.2 }
termination_by fuel n => (fuel, sizeOf n)

/-- The `for pointer in node.pointers.iter()` loop of `avg_node_degree`,
threading the accumulated `Averages` and the running `degree`. -/
def avgPointersLoop {K V : Type} (store : Cid → Option (Node K V)) :
    Nat → List (Pointer K V) → Averages → Nat → Averages × Nat
  | _, [], avg, degree => (avg, degree)
  | fuel, .Values v :: rest, avg, degree =>
    avgPointersLoop store fuel rest { avg with values := avg.values + v.length }
      degree
  | fuel, .Link cid cache :: rest, avg, degree =>
    match fuel, resolve_link store cid cache with
    | fuel' + 1, some child =>
      avgPointersLoop store (fuel' + 1) rest
        (avg.addAssign (avg_node_degree store fuel' child)) (degree + 1)
    | fuel0, _ => avgPointersLoop store fuel0 rest avg (degree + 1)
  | fuel, .Dirty child :: rest, avg, degree =>
    match fuel with
    | fuel' + 1 =>
      avgPointersLoop store (fuel' + 1) rest
        (avg.addAssign (avg_node_degree store fuel' child)) (degree + 1)
    | 0 => avgPointersLoop store 0 rest avg (degree + 1)
termination_by fuel ps _ _ => (fuel, sizeOf ps)
decreasing_by
  all_goals simp_wf
  all_goals first
    | exact Prod.Lex.left _ _ (Nat.lt_succ_self _)
    | (apply Prod.Lex.right; omega)

end

theorem avgPointersLoop_min_degree_le {K V : Type}
    (store : Cid → Option (Node K V)) (ps : List (Pointer K V)) :
    ∀ (fuel : Nat) (avg : Averages) (degree : Nat),
      ((avgPointersLoop store fuel ps avg degree).1).min_degree ≤
        avg.min_degree := by
  induction ps with
  | nil => intro fuel avg degree; simp [avgPointersLoop]
  | cons p rest ih =>
    intro fuel avg degree
    cases p with
    | Values v =>
      simp only [avgPointersLoop]
      exact ih fuel _ degree
    | Link cid cache =>
      rw [avgPointersLoop.eq_def]
      cases fuel with
      | zero =>
        cases hr : resolve_link store cid cache <;> simp only [hr] <;>
          exact ih 0 avg (degree + 1)
      | succ fuel' =>
        cases hr : resolve_link store cid cache with
        | none =>
          simp only [hr]
          exact ih (fuel' + 1) avg (degree + 1)
        | some child =>
          simp only [hr]
          refine le_trans (ih (fuel' + 1) _ (degree + 1)) ?_
          simp [Averages.addAssign]
    | Dirty child =>
      cases fuel with
      | zero =>
        simp only [avgPointersLoop]
        exact ih 0 avg (degree + 1)
      | succ fuel' =>
        simp only [avgPointersLoop]
        refine le_trans (ih (fuel' + 1) _ (degree + 1)) ?_
        simp [Averages.addAssign]

/-- C8: for every store, every fuel bound and every node tree,
`avg_node_degree` returns an `Averages` whose `min_degree` field is `0`: the
accumulator starts at `min_degree = 0` and is only ever folded with `min`, so
the statistic is unconditionally floored to zero. -/
theorem avg_node_degree_min_degree_zero {K V : Type}
    (store : Cid → Option (Node K V)) (fuel : Nat) (n : Node K V) :
    (avg_node_degree store fuel n).min_degree = 0 := by
  cases n with
  | mk bf ps =>
    simp only [avg_node_degree]
    have h := avgPointersLoop_min_degree_le store ps fuel ⟨1, 0, 0, 0, 0⟩ 0
    simp only [Nat.le_zero] at h
    simp [h]

/-! ## Operation sequences and history independence (`tests.rs`) -/

/-- The `Operation` enum of `tests.rs`: insert a key-value pair or remove a
key. -/
inductive Operation (K V : Type) where
  | Insert : K → V → Operation K V
  | Remove : K → Operation K V
deriving DecidableEq, Repr

namespace Operation

/-- `Operation::can_be_swapped_with` (`tests.rs`): two inserts commute unless
they write different values to the same key; an insert and a remove commute
only on distinct keys; removes always commute. -/
def can_be_swapped_with {K V : Type} [DecidableEq K] [DecidableEq V] :
    Operation K V → Operation K V → Bool
  | .Insert key_a val_a, .Insert key_b val_b =>
    decide (key_a ≠ key_b) || decide (val_a = val_b)
  | .Insert key_i _, .Remove key_r => decide (key_i ≠ key_r)
  | .Remove key_r, .Insert key_i _ => decide (key_i ≠ key_r)
  | .Remove _, .Remove _ => true

end Operation

/-- `Shuffleable::shuffle_swap` for `Operations` (`tests.rs`): swap the
elements at indices `a` and `b` when every element of the closed segment
between them can be swapped with both endpoints, and leave the sequence
unchanged otherwise.  (The Rust code indexes the vector directly and would
panic on out-of-range indices; the model returns the sequence unchanged
there, and the property test only ever calls it with in-range indices.) -/
def shuffle_swap {K V : Type} [DecidableEq K] [DecidableEq V]
    (ops : List (Operation K V)) (a b : Nat) : List (Operation K V) :=
  if a = b then ops
  else
    if h : max a b < ops.length then
      let left := ops.get ⟨min a b, lt_of_le_of_lt min_le_max h⟩
      let right := ops.get ⟨max a b, h⟩
      if ((ops.drop (min a b)).take (max a b - min a b + 1)).all
          (fun nb => left.can_be_swapped_with nb &&
            right.can_be_swapped_with nb) then
        (ops.set (min a b) right).set (max a b) left
      else ops
    else ops

/-- Modelled from the spec: the key-value content effect of one trie
operation.  The trie engine (`Hamt::set`/`Hamt::delete`, in the vendored
crate's `hamt.rs`/`node.rs`, outside the given sources) implements a map:
`set` inserts or overwrites a binding (spec §4.1), `delete` removes it. -/
def applyOp {K V : Type} [DecidableEq K] (m : K → Option V) :
    Operation K V → (K → Option V)
  | .Insert k v => fun q => if q = k then some v else m q
  | .Remove k => fun q => if q = k then none else m q

/-- The key-value content reached by running a sequence of operations,
left to right, as `node_from_operations` does. -/
def applyOps {K V : Type} [DecidableEq K] (ops : List (Operation K V))
    (m : K → Option V) : K → Option V :=
  ops.foldl applyOp m

/-- The empty trie's content. -/
def emptyContent (K V : Type) : K → Option V := fun _ => none

theorem applyOp_comm {K V : Type} [DecidableEq K] [DecidableEq V]
    (x y : Operation K V) (h : x.can_be_swapped_with y = true)
    (m : K → Option V) :
    applyOp (applyOp m x) y = applyOp (applyOp m y) x := by
  cases x with
  | Insert ka va =>
    cases y with
    | Insert kb vb =>
      simp only [Operation.can_be_swapped_with, Bool.or_eq_true,
        decide_eq_true_eq] at h
      funext q
      simp only [applyOp]
      rcases h with h | h <;> split_ifs <;> simp_all
    | Remove kr =>
      simp only [Operation.can_be_swapped_with, decide_eq_true_eq] at h
      funext q
      simp only [applyOp]
      split_ifs <;> simp_all
  | Remove ka =>
    cases y with
    | Insert kb vb =>
      simp only [Operation.can_be_swapped_with, decide_eq_true_eq] at h
      funext q
      simp only [applyOp]
      split_ifs <;> simp_all
    | Remove kb =>
      funext q
      simp only [applyOp]
      split_ifs <;> rfl

theorem applyOps_append {K V : Type} [DecidableEq K]
    (l1 l2 : List (Operation K V)) (m : K → Option V) :
    applyOps (l1 ++ l2) m = applyOps l2 (applyOps l1 m) :=
  List.foldl_append _ _ _ _

theorem applyOps_move_head {K V : Type} [DecidableEq K] [DecidableEq V]
    (a : Operation K V) (l : List (Operation K V))
    (h : ∀ x ∈ l, a.can_be_swapped_with x = true) (m : K → Option V) :
    applyOps (a :: l) m = applyOps (l ++ [a]) m := by
  induction l generalizing m with
  | nil => rfl
  | cons y l ih =>
    have hy := h y (by simp)
    have h' : ∀ x ∈ l, a.can_be_swapped_with x = true := fun x hx =>
      h x (by simp [hx])
    have step : applyOps (a :: y :: l) m = applyOps (a :: l) (applyOp m y) := by
      simp only [applyOps, List.foldl_cons]
      rw [applyOp_comm a y hy m]
    rw [step, ih h' (applyOp m y)]
    simp only [applyOps, List.cons_append, List.foldl_cons]

theorem applyOps_swap_ends {K V : Type} [DecidableEq K] [DecidableEq V]
    (a b : Operation K V) (mid post : List (Operation K V))
    (ha : ∀ x ∈ mid, a.can_be_swapped_with x = true)
    (hb : ∀ x ∈ mid, b.can_be_swapped_with x = true)
    (hab : a.can_be_swapped_with b = true) (m : K → Option V) :
    applyOps (a :: (mid ++ b :: post)) m =
      applyOps (b :: (mid ++ a :: post)) m := by
  have key : ∀ m0 : K → Option V,
      applyOps (a :: (mid ++ [b])) m0 = applyOps (b :: (mid ++ [a])) m0 := by
    intro m0
    have ha' : ∀ x ∈ mid ++ [b], a.can_be_swapped_with x = true := by
      intro x hx
      rcases List.mem_append.mp hx with hx | hx
      · exact ha x hx
      · simp at hx
        rw [hx]
        exact hab
    rw [applyOps_move_head a (mid ++ [b]) ha' m0, applyOps_append,
      ← applyOps_move_head b mid hb m0, ← applyOps_append]
    simp
  have e1 : a :: (mid ++ b :: post) = (a :: (mid ++ [b])) ++ post := by simp
  have e2 : b :: (mid ++ a :: post) = (b :: (mid ++ [a])) ++ post := by simp
  rw [e1, e2, applyOps_append, applyOps_append, key]

theorem segment_decomp {α : Type} (l : List α) (i j : Nat) (hij : i < j)
    (hj : j < l.length) :
    l = l.take i ++ l.get ⟨i, lt_trans hij hj⟩ ::
        ((l.drop (i + 1)).take (j - i - 1) ++ l.get ⟨j, hj⟩ :: l.drop (j + 1)) := by
  conv_lhs => rw [← List.take_append_drop i l]
  rw [List.drop_eq_getElem_cons (lt_trans hij hj)]
  congr 1
  rw [List.get_eq_getElem]
  congr 1
  conv_lhs => rw [← List.take_append_drop (j - i - 1) (l.drop (i + 1))]
  rw [List.drop_drop]
  rw [show i + 1 + (j - i - 1) = j from by omega]
  rw [List.drop_eq_getElem_cons hj, List.get_eq_getElem]

theorem segment_decomp_set {α : Type} (l : List α) (i j : Nat) (hij : i < j)
    (hj : j < l.length) :
    (l.set i (l.get ⟨j, hj⟩)).set j (l.get ⟨i, lt_trans hij hj⟩) =
      l.take i ++ l.get ⟨j, hj⟩ ::
        ((l.drop (i + 1)).take (j - i - 1) ++
          l.get ⟨i, lt_trans hij hj⟩ :: l.drop (j + 1)) := by
  have hi : i < l.length := lt_trans hij hj
  have hlentake : (l.take i).length = i := by
    rw [List.length_take]
    omega
  have htake : (l.take i ++ l.get ⟨j, hj⟩ :: l.drop (i + 1)).take j =
      l.take i ++ l.get ⟨j, hj⟩ :: (l.drop (i + 1)).take (j - i - 1) := by
    rw [List.take_append_eq_append_take]
    congr 1
    · rw [List.take_take]
      congr 1
      omega
    · rw [hlentake]
      rw [show j - i = (j - i - 1) + 1 from by omega, List.take_succ_cons]
      simp only [Nat.add_sub_cancel]
  have hdrop : (l.take i ++ l.get ⟨j, hj⟩ :: l.drop (i + 1)).drop (j + 1) =
      l.drop (j + 1) := by
    rw [List.drop_append_eq_append_drop]
    rw [List.drop_eq_nil_of_le (by rw [hlentake]; omega), hlentake]
    rw [show j + 1 - i = (j - i) + 1 from by omega, List.drop_succ_cons,
      List.drop_drop]
    rw [show i + 1 + (j - i) = j + 1 from by omega]
    rfl
  have hlen1 : j < (l.take i ++ l.get ⟨j, hj⟩ :: l.drop (i + 1)).length := by
    rw [List.length_append, hlentake, List.length_cons, List.length_drop]
    omega
  rw [List.set_eq_take_cons_drop _ hi, List.set_eq_take_cons_drop _ hlen1,
    htake, hdrop, List.append_assoc]
  rfl

theorem segment_take {α : Type} (l : List α) (i j : Nat) (hij : i < j)
    (hj : j < l.length) :
    (l.drop i).take (j - i + 1) =
      l.get ⟨i, lt_trans hij hj⟩ ::
        ((l.drop (i + 1)).take (j - i - 1) ++ [l.get ⟨j, hj⟩]) := by
  rw [List.drop_eq_getElem_cons (lt_trans hij hj)]
  rw [List.take_succ_cons, List.get_eq_getElem]
  congr 1
  have hlen : ((l.drop (i + 1)).take (j - i - 1)).length = j - i - 1 := by
    rw [List.length_take, List.length_drop]
    omega
  have hsplit : l.drop (i + 1) =
      (l.drop (i + 1)).take (j - i - 1) ++ l.get ⟨j, hj⟩ :: l.drop (j + 1) := by
    conv_lhs => rw [← List.take_append_drop (j - i - 1) (l.drop (i + 1))]
    rw [List.drop_drop]
    rw [show i + 1 + (j - i - 1) = j from by omega]
    rw [List.drop_eq_getElem_cons hj, List.get_eq_getElem]
  conv_lhs => rw [hsplit]
  rw [List.take_append_eq_append_take]
  rw [List.take_of_length_le (le_of_eq_of_le hlen (by omega))]
  rw [hlen]
  rw [show j - i - (j - i - 1) = 1 from by omega]
  rfl

theorem applyOps_set_swap {K V : Type} [DecidableEq K] [DecidableEq V]
    (ops : List (Operation K V)) (i j : Nat) (hij : i < j) (hj : j < ops.length)
    (hall : ((ops.drop i).take (j - i + 1)).all
        (fun nb => (ops.get ⟨i, lt_trans hij hj⟩).can_be_swapped_with nb &&
          (ops.get ⟨j, hj⟩).can_be_swapped_with nb) = true)
    (m : K → Option V) :
    applyOps ((ops.set i (ops.get ⟨j, hj⟩)).set j (ops.get ⟨i, lt_trans hij hj⟩)) m
      = applyOps ops m := by
  rw [segment_take ops i j hij hj, List.all_eq_true] at hall
  have ha : ∀ x ∈ (ops.drop (i + 1)).take (j - i - 1),
      (ops.get ⟨i, lt_trans hij hj⟩).can_be_swapped_with x = true := fun x hx =>
    (Bool.and_eq_true _ _ |>.mp (hall x (by simp [hx]))).1
  have hb : ∀ x ∈ (ops.drop (i + 1)).take (j - i - 1),
      (ops.get ⟨j, hj⟩).can_be_swapped_with x = true := fun x hx =>
    (Bool.and_eq_true _ _ |>.mp (hall x (by simp [hx]))).2
  have hab : (ops.get ⟨i, lt_trans hij hj⟩).can_be_swapped_with
      (ops.get ⟨j, hj⟩) = true :=
    (Bool.and_eq_true _ _ |>.mp (hall (ops.get ⟨j, hj⟩) (by simp))).1
  rw [segment_decomp_set ops i j hij hj]
  conv_rhs => rw [segment_decomp ops i j hij hj]
  rw [applyOps_append, applyOps_append]
  exact (applyOps_swap_ends (ops.get ⟨i, lt_trans hij hj⟩) (ops.get ⟨j, hj⟩)
    ((ops.drop (i + 1)).take (j - i - 1)) (ops.drop (j + 1)) ha hb hab
    (applyOps (ops.take i) m)).symm

theorem shuffle_swap_applyOps {K V : Type} [DecidableEq K] [DecidableEq V]
    (ops : List (Operation K V)) (a b : Nat) (m : K → Option V) :
    applyOps (shuffle_swap ops a b) m = applyOps ops m := by
  rw [shuffle_swap]
  by_cases hab : a = b
  · rw [if_pos hab]
  · rw [if_neg hab]
    by_cases h : max a b < ops.length
    · rw [dif_pos h]
      dsimp only
      split
      next hall =>
        exact applyOps_set_swap ops (min a b) (max a b) (min_lt_max.mpr hab) h
          hall m
      next => rfl
    · rw [dif_neg h]

/-- The operation sequences reachable from `ops` by repeatedly applying
`shuffle_swap`, i.e. exactly the permutations the property test's
commutation-respecting shuffle can produce. -/
inductive ShuffleReachable {K V : Type} [DecidableEq K] [DecidableEq V] :
    List (Operation K V) → List (Operation K V) → Prop where
  | refl (ops : List (Operation K V)) : ShuffleReachable ops ops
  | step (ops l : List (Operation K V)) (a b : Nat) :
      ShuffleReachable ops l → ShuffleReachable ops (shuffle_swap l a b)

/-- C1: for every operation sequence applied to the empty trie and every
permutation of it reachable by swaps respecting the commutation rule of
`Operation::can_be_swapped_with`, flushing yields identical root content
identifiers.  The trie engine and its flush are outside the given sources;
per the spec (§4.1 Determinism, invariant 3) the flushed root identifier is a
function of the final key-value content only, so `flush` here ranges over
every function of the content reached from the empty map (the `bit_width = 4`,
`bucket_size = 3` configuration of the test is fixed inside any such
function). -/
theorem history_independence {K V C : Type} [DecidableEq K] [DecidableEq V]
    (flush : (K → Option V) → C) (ops l : List (Operation K V))
    (h : ShuffleReachable ops l) :
    flush (applyOps ops (emptyContent K V)) =
      flush (applyOps l (emptyContent K V)) := by
  induction h with
  | refl => rfl
  | step l a b hr ih => rw [shuffle_swap_applyOps l a b]; exact ih

/-- Witness for C1: a concrete sequence, a concrete commuting swap, and a
concrete observation of the resulting content. -/
theorem history_independence_witness :
    (fun m : String → Option Nat => (m "a", m "b"))
        (applyOps [Operation.Insert "a" 1, Operation.Insert "b" 2]
          (emptyContent String Nat)) =
      (fun m : String → Option Nat => (m "a", m "b"))
        (applyOps
          (shuffle_swap [Operation.Insert "a" 1, Operation.Insert "b" 2] 0 1)
          (emptyContent String Nat)) :=
  history_independence (fun m => (m "a", m "b"))
    [Operation.Insert "a" 1, Operation.Insert "b" 2] _
    (ShuffleReachable.step _ _ 0 1 (ShuffleReachable.refl _))

/-- C2 (Scenario B): inserting `a ↦ 1`, then `b ↦ 2`, then deleting `a`
reaches exactly the content of inserting only `b ↦ 2` into an empty trie, so
any flush (a function of the final content, per the spec's determinism) yields
the same root identifier for both. -/
theorem scenario_b {C : Type} (flush : (String → Option Nat) → C) :
    flush (applyOps [Operation.Insert "a" 1, Operation.Insert "b" 2,
        Operation.Remove "a"] (emptyContent String Nat)) =
      flush (applyOps [Operation.Insert "b" 2] (emptyContent String Nat)) := by
  refine congrArg flush ?_
  funext q
  simp only [applyOps, List.foldl_cons, List.foldl_nil, applyOp, emptyContent]
  by_cases hqa : q = "a" <;> by_cases hqb : q = "b"
  · exact absurd (hqa ▸ hqb : "a" = "b") (by decide)
  · simp [hqa, hqb]
  · simp [hqa, hqb]
  · simp [hqa, hqb]

end HamtBench
